import Mathlib

/-!
Blink: a shallow embedding of `example/blink.c`

The program under study is

```
int main() {
  DDRC |= 1 << LED_PIN;          // line 7
  while (1) {                    // line 8
    PORTC &= ~(1 << LED_PIN);    // line 9
    _delay_ms(500);              // line 10
    PORTC |= 1 << LED_PIN;       // line 11
    _delay_ms(500);              // line 12
  }
  return 0;                      // line 14
}
```

where line 4 defines `LED_PIN` as `PC2`. The two I/O registers `DDRC` and
`PORTC` are 8-bit; `int` is 16-bit on AVR.
Machine integers are natural numbers with explicit reduction modulo `2 ^ w`.
The program is a small-step machine whose control points are the source lines
and whose observable events are the register writes and the delay calls.
-/

namespace Blink

/-! ## Machine arithmetic -/

/-- Width in bits of the C type `int` under avr-gcc. -/
def INT_BITS : Nat := 16

/-- Width in bits of the I/O registers `DDRC` and `PORTC`, which `<avr/io.h>`
declares as `volatile uint8_t`. -/
def REG_BITS : Nat := 8

/-- Modelled from the spec: `PC2` is declared by `<avr/io.h>` (avr-libc), which is
not under `src/`; its value is 2, bit 2 of port C. The machine below takes the
pin index as a parameter, so nothing but the instances at `LED_PIN` depends on
this value. -/
def PC2 : Nat := 2

/-- Source line 4: `#define LED_PIN PC2`. -/
def LED_PIN : Nat := PC2

/-- The C expression `1 << n` evaluated in `int`, as a bit pattern; for the pin
indices `n ≤ 7` the shift does not overflow and the reduction is the identity. -/
def shl1 (n : Nat) : Nat := (1 <<< n) % 2 ^ INT_BITS

/-- The C expression `~x` evaluated in `int`, as a bit pattern (one's complement
on `INT_BITS` bits). -/
def intNot (x : Nat) : Nat := 2 ^ INT_BITS - 1 - x % 2 ^ INT_BITS

/-- Conversion of an `int` value to `uint8_t` when it is stored to a register. -/
def toU8 (x : Nat) : Nat := x % 2 ^ REG_BITS

/-- Value stored by `R |= 1 << pin` when the register `R` holds `r`. -/
def setBit (pin r : Nat) : Nat := toU8 (r ||| shl1 pin)

/-- Value stored by `R &= ~(1 << pin)` when the register `R` holds `r`. -/
def clearBit (pin r : Nat) : Nat := toU8 (r &&& intNot (shl1 pin))

/-! ## Control points, states and events -/

/-- Control points of `main`, named after the source line about to execute;
`exited` is the state after `return`. -/
inductive Loc where
  | line7
  | line8
  | line9
  | line10
  | line11
  | line12
  | line14
  | exited
  deriving DecidableEq, Repr

/-- Machine state: the control point and the two registers the program touches. -/
structure State where
  pc : Loc
  DDRC : Nat
  PORTC : Nat
  deriving DecidableEq, Repr

/-- Observable events of one step: a store to `DDRC`, a store to `PORTC`, or a
call `_delay_ms(ms)` of avr-libc, of which only the requested duration is kept. -/
inductive Event where
  | writeDDRC (v : Nat)
  | writePORTC (v : Nat)
  | delay_ms (ms : Nat)
  deriving DecidableEq, Repr

/-- Entry of `main` with the registers holding `d` and `p`. -/
def entry (d p : Nat) : State := { pc := .line7, DDRC := d, PORTC := p }

/-- One small step of `main` with `LED_PIN` bound to `led`. A step returns the
next state and the events it emits; `none` means no step exists (the program
has returned). -/
def step (led : Nat) (s : State) : Option (State × List Event) :=
  match s.pc with
  | .line7 =>
    let v := setBit led s.DDRC
    some ({ s with pc := .line8, DDRC := v }, [.writeDDRC v])
  | .line8 =>
    if (1 : Nat) ≠ 0 then some ({ s with pc := .line9 }, [])
    else some ({ s with pc := .line14 }, [])
  | .line9 =>
    let v := clearBit led s.PORTC
    some ({ s with pc := .line10, PORTC := v }, [.writePORTC v])
  | .line10 => some ({ s with pc := .line11 }, [.delay_ms 500])
  | .line11 =>
    let v := setBit led s.PORTC
    some ({ s with pc := .line12, PORTC := v }, [.writePORTC v])
  | .line12 => some ({ s with pc := .line8 }, [.delay_ms 500])
  | .line14 => some ({ s with pc := .exited }, [])
  | .exited => none

/-- Execution of exactly `n` steps from `s`: the state reached and the events
emitted so far, or `none` when the program stops before `n` steps are done. -/
def run (led : Nat) : Nat → State → Option (State × List Event)
  | 0, s => some (s, [])
  | n + 1, s =>
    match run led n s with
    | none => none
    | some (s1, tr) =>
      match step led s1 with
      | none => none
      | some (s2, ev) => some (s2, tr ++ ev)

/-- Events emitted by the first `n` steps from `s`. -/
def trace (led n : Nat) (s : State) : List Event :=
  match run led n s with
  | some (_, tr) => tr
  | none => []

/-- Values written to `PORTC`, in order. -/
def portcWrites : List Event → List Nat
  | [] => []
  | .writePORTC v :: es => v :: portcWrites es
  | _ :: es => portcWrites es

/-- Sum of the delays requested in a trace, in milliseconds. -/
def elapsed : List Event → Nat
  | [] => 0
  | .delay_ms ms :: es => ms + elapsed es
  | _ :: es => elapsed es

/-- The `PORTC` writes of a trace paired with the time (sum of the delays
requested before them, starting the clock at `t`) at which they occur. -/
def timedWritesFrom (t : Nat) : List Event → List (Nat × Nat)
  | [] => []
  | .writePORTC v :: es => (t, v) :: timedWritesFrom t es
  | .delay_ms ms :: es => timedWritesFrom (t + ms) es
  | .writeDDRC _ :: es => timedWritesFrom t es

/-- Timed `PORTC` writes with the clock started at 0. -/
def timedWrites (tr : List Event) : List (Nat × Nat) := timedWritesFrom 0 tr

/-- Level of pin `pin` in a register value. -/
def level (pin v : Nat) : Bool := v.testBit pin

/-! ## Closed forms used by the proofs

These describe what the execution from `entry d p` is proved to be; they are
compared with `run` in `run_entry` and are not part of the embedding. -/

/-- Predicted value of the `k`-th store to `PORTC` when it initially holds `p`. -/
def writeVal (led p k : Nat) : Nat :=
  if k % 2 = 0 then clearBit led p else setBit led (clearBit led p)

/-- Predicted `i`-th event of the execution from `entry d p`. -/
def eventAt (led d p : Nat) : Nat → Event
  | 0 => .writeDDRC (setBit led d)
  | i + 1 => if i % 2 = 0 then .writePORTC (writeVal led p (i / 2)) else .delay_ms 500

/-- Predicted control point after `n` steps. -/
def pcAt : Nat → Loc
  | 0 => .line7
  | n + 1 =>
    match n % 5 with
    | 0 => .line8
    | 1 => .line9
    | 2 => .line10
    | 3 => .line11
    | _ => .line12

/-- Predicted content of `DDRC` after `n` steps. -/
def ddrcAt (led d n : Nat) : Nat := if n = 0 then d else setBit led d

/-- Predicted content of `PORTC` after `n` steps. -/
def portcAt (led p n : Nat) : Nat :=
  if n ≤ 2 then p
  else if (n - 1) % 5 = 2 ∨ (n - 1) % 5 = 3 then clearBit led p
  else setBit led (clearBit led p)

/-- Number of events emitted by the first `n` steps: every step emits one
event except the evaluation of the loop condition at line 8. -/
def eventsBy (n : Nat) : Nat := n - (n + 3) / 5

/-! ## Bit-level lemmas -/

theorem testBit_toU8 (x i : Nat) : (toU8 x).testBit i = (decide (i < 8) && x.testBit i) := by
  show (x % 2 ^ 8).testBit i = _
  rw [Nat.testBit_mod_two_pow]

theorem testBit_shl1 (n i : Nat) : (shl1 n).testBit i = (decide (i < 16) && decide (n = i)) := by
  show ((1 <<< n) % 2 ^ 16).testBit i = _
  rw [Nat.testBit_mod_two_pow, Nat.shiftLeft_eq, Nat.one_mul, Nat.testBit_two_pow]

theorem testBit_intNot (x i : Nat) :
    (intNot x).testBit i = (decide (i < 16) && !x.testBit i) := by
  have h : x % 2 ^ 16 < 2 ^ 16 := Nat.mod_lt _ (by norm_num)
  have e : intNot x = 2 ^ 16 - (x % 2 ^ 16 + 1) := by
    simp only [intNot, INT_BITS]; omega
  rw [e, Nat.testBit_two_pow_sub_succ h, Nat.testBit_mod_two_pow]
  by_cases hi : i < 16 <;> simp [hi]

theorem testBit_setBit (pin r i : Nat) :
    (setBit pin r).testBit i = (decide (i < 8) && (r.testBit i || decide (pin = i))) := by
  simp only [setBit, testBit_toU8, Nat.testBit_or, testBit_shl1]
  by_cases hi : i < 8
  · have : i < 16 := by omega
    simp [hi, this]
  · simp [hi]

theorem testBit_clearBit (pin r i : Nat) :
    (clearBit pin r).testBit i = (decide (i < 8) && (r.testBit i && !decide (pin = i))) := by
  simp only [clearBit, testBit_toU8, Nat.testBit_and, testBit_intNot, testBit_shl1]
  by_cases hi : i < 8
  · have : i < 16 := by omega
    simp [hi, this]
  · simp [hi]

theorem clearBit_setBit (pin r : Nat) : clearBit pin (setBit pin r) = clearBit pin r := by
  apply Nat.eq_of_testBit_eq
  intro i
  simp only [testBit_clearBit, testBit_setBit]
  by_cases hi : i < 8 <;> by_cases hp : pin = i <;> simp [hi, hp]

theorem clearBit_clearBit (pin r : Nat) : clearBit pin (clearBit pin r) = clearBit pin r := by
  apply Nat.eq_of_testBit_eq
  intro i
  simp only [testBit_clearBit]
  by_cases hi : i < 8 <;> by_cases hp : pin = i <;> simp [hi, hp]

theorem setBit_setBit (pin r : Nat) : setBit pin (setBit pin r) = setBit pin r := by
  apply Nat.eq_of_testBit_eq
  intro i
  simp only [testBit_setBit]
  by_cases hi : i < 8 <;> by_cases hp : pin = i <;> simp [hi, hp]

theorem setBit_clearBit (pin r : Nat) : setBit pin (clearBit pin r) = setBit pin r := by
  apply Nat.eq_of_testBit_eq
  intro i
  simp only [testBit_clearBit, testBit_setBit]
  by_cases hi : i < 8 <;> by_cases hp : pin = i <;> simp [hi, hp]

theorem setBit_lt (pin r : Nat) : setBit pin r < 256 := by
  simp only [setBit, toU8, REG_BITS]; omega

theorem clearBit_lt (pin r : Nat) : clearBit pin r < 256 := by
  simp only [clearBit, toU8, REG_BITS]; omega


/-! ## The execution in closed form -/

theorem portcAt_clear (led p n : Nat) (h : n = 2 ∨ (n - 1) % 5 = 1) :
    clearBit led (portcAt led p n) = clearBit led p := by
  simp only [portcAt]
  split_ifs
  · rfl
  · omega
  · rw [clearBit_setBit, clearBit_clearBit]

theorem run_entry (led d p n : Nat) :
    run led n (entry d p) =
      some (⟨pcAt n, ddrcAt led d n, portcAt led p n⟩,
        (List.range (eventsBy n)).map (eventAt led d p)) := by
  induction n with
  | zero => rfl
  | succ n ih =>
    rw [run, ih]
    rcases n with _ | k
    · rfl
    · have hk : k % 5 = 0 ∨ k % 5 = 1 ∨ k % 5 = 2 ∨ k % 5 = 3 ∨ k % 5 = 4 := by omega
      rcases hk with h | h | h | h | h
      · have h1 : (k + 1) % 5 = 1 := by omega
        have e : eventsBy (k + 1 + 1) = eventsBy (k + 1) := by simp only [eventsBy]; omega
        have q : portcAt led p (k + 1 + 1) = portcAt led p (k + 1) := by
          simp only [portcAt]
          split_ifs <;> first | rfl | omega
        simp [pcAt, h, h1, step, e, q, ddrcAt]
      · have h1 : (k + 1) % 5 = 2 := by omega
        obtain ⟨i, e, e1, i2, i4⟩ : ∃ i, eventsBy (k + 1 + 1) = i + 1 + 1 ∧
            eventsBy (k + 1) = i + 1 ∧ i % 2 = 0 ∧ i / 2 % 2 = 0 :=
          ⟨eventsBy (k + 1) - 1, by simp only [eventsBy]; omega⟩
        have q : portcAt led p (k + 1 + 1) = clearBit led p := by
          simp only [portcAt]
          split_ifs <;> first | rfl | omega
        have c := portcAt_clear led p (k + 1) (by omega)
        simp [pcAt, h, h1, step, e, e1, q, c, ddrcAt, List.range_succ, eventAt, writeVal, i2, i4]
      · have h1 : (k + 1) % 5 = 3 := by omega
        obtain ⟨i, e, e1, i2⟩ : ∃ i, eventsBy (k + 1 + 1) = i + 1 + 1 ∧
            eventsBy (k + 1) = i + 1 ∧ i % 2 = 1 :=
          ⟨eventsBy (k + 1) - 1, by simp only [eventsBy]; omega⟩
        have q : portcAt led p (k + 1 + 1) = portcAt led p (k + 1) := by
          simp only [portcAt]
          split_ifs <;> first | rfl | omega
        simp [pcAt, h, h1, step, e, e1, q, ddrcAt, List.range_succ, eventAt, i2]
      · have h1 : (k + 1) % 5 = 4 := by omega
        obtain ⟨i, e, e1, i2, i4⟩ : ∃ i, eventsBy (k + 1 + 1) = i + 1 + 1 ∧
            eventsBy (k + 1) = i + 1 ∧ i % 2 = 0 ∧ i / 2 % 2 = 1 :=
          ⟨eventsBy (k + 1) - 1, by simp only [eventsBy]; omega⟩
        have q : portcAt led p (k + 1 + 1) = setBit led (clearBit led p) := by
          simp only [portcAt]
          split_ifs <;> first | rfl | omega
        have c : portcAt led p (k + 1) = clearBit led p := by
          simp only [portcAt]
          split_ifs <;> first | rfl | omega
        simp [pcAt, h, h1, step, e, e1, q, c, ddrcAt, List.range_succ, eventAt, writeVal, i2, i4]
      · have h1 : (k + 1) % 5 = 0 := by omega
        obtain ⟨i, e, e1, i2⟩ : ∃ i, eventsBy (k + 1 + 1) = i + 1 + 1 ∧
            eventsBy (k + 1) = i + 1 ∧ i % 2 = 1 :=
          ⟨eventsBy (k + 1) - 1, by simp only [eventsBy]; omega⟩
        have q : portcAt led p (k + 1 + 1) = portcAt led p (k + 1) := by
          simp only [portcAt]
          split_ifs <;> first | rfl | omega
        simp [pcAt, h, h1, step, e, e1, q, ddrcAt, List.range_succ, eventAt, i2]


theorem trace_entry (led d p n : Nat) :
    trace led n (entry d p) = (List.range (eventsBy n)).map (eventAt led d p) := by
  simp only [trace, run_entry]

theorem getElem?_map_range {α : Type} (f : Nat → α) (L i : Nat) :
    ((List.range L).map f)[i]? = if i < L then some (f i) else none := by
  rw [List.getElem?_map]
  split_ifs with h
  · rw [List.getElem?_range h]; rfl
  · rw [List.getElem?_eq_none (by simpa using h)]; rfl

theorem portcWrites_append (l l' : List Event) :
    portcWrites (l ++ l') = portcWrites l ++ portcWrites l' := by
  induction l with
  | nil => rfl
  | cons e es ih => cases e <;> simp [portcWrites, ih]

theorem elapsed_append (l l' : List Event) : elapsed (l ++ l') = elapsed l + elapsed l' := by
  induction l with
  | nil => simp [elapsed]
  | cons e es ih => cases e <;> simp [elapsed, ih]; omega

theorem timedWritesFrom_append (t : Nat) (l l' : List Event) :
    timedWritesFrom t (l ++ l') = timedWritesFrom t l ++ timedWritesFrom (t + elapsed l) l' := by
  induction l generalizing t with
  | nil => simp [timedWritesFrom, elapsed]
  | cons e es ih => cases e <;> simp [timedWritesFrom, elapsed, ih, Nat.add_assoc]

theorem portcWrites_eventAt (led d p L : Nat) :
    portcWrites ((List.range L).map (eventAt led d p)) =
      (List.range (L / 2)).map (writeVal led p) := by
  induction L with
  | zero => rfl
  | succ L ih =>
    rw [List.range_succ, List.map_append, portcWrites_append, ih]
    rcases L with _ | i
    · rfl
    · rcases Nat.mod_two_eq_zero_or_one i with h | h
      · have e : (i + 1 + 1) / 2 = (i + 1) / 2 + 1 := by omega
        have e' : (i + 1) / 2 = i / 2 := by omega
        simp [eventAt, h, portcWrites, e, e', List.range_succ]
      · have e : (i + 1 + 1) / 2 = (i + 1) / 2 := by omega
        simp [eventAt, h, portcWrites, e]

theorem elapsed_eventAt (led d p L : Nat) :
    elapsed ((List.range L).map (eventAt led d p)) = 500 * ((L - 1) / 2) := by
  induction L with
  | zero => rfl
  | succ L ih =>
    rw [List.range_succ, List.map_append, elapsed_append, ih]
    rcases L with _ | i
    · rfl
    · rcases Nat.mod_two_eq_zero_or_one i with h | h
      · simp [eventAt, h, elapsed]; omega
      · simp [eventAt, h, elapsed]; omega

theorem timedWrites_eventAt (led d p L : Nat) :
    timedWrites ((List.range L).map (eventAt led d p)) =
      (List.range (L / 2)).map (fun k => (500 * k, writeVal led p k)) := by
  induction L with
  | zero => rfl
  | succ L ih =>
    rw [timedWrites] at ih ⊢
    rw [List.range_succ, List.map_append, timedWritesFrom_append, ih, elapsed_eventAt]
    rcases L with _ | i
    · rfl
    · rcases Nat.mod_two_eq_zero_or_one i with h | h
      · have e : (i + 1 + 1) / 2 = (i + 1) / 2 + 1 := by omega
        have e' : (i + 1) / 2 = i / 2 := by omega
        simp [eventAt, h, timedWritesFrom, e, e', List.range_succ]
      · have e : (i + 1 + 1) / 2 = (i + 1) / 2 := by omega
        simp [eventAt, h, timedWritesFrom, e]

theorem portcWrites_trace_getElem? (led d p n k : Nat) :
    (portcWrites (trace led n (entry d p)))[k]? =
      if k < eventsBy n / 2 then some (writeVal led p k) else none := by
  rw [trace_entry, portcWrites_eventAt, getElem?_map_range]

theorem timedWrites_trace_getElem? (led d p n k : Nat) :
    (timedWrites (trace led n (entry d p)))[k]? =
      if k < eventsBy n / 2 then some (500 * k, writeVal led p k) else none := by
  rw [trace_entry, timedWrites_eventAt, getElem?_map_range]

theorem trace_getElem? (led d p n i : Nat) :
    (trace led n (entry d p))[i]? =
      if i < eventsBy n then some (eventAt led d p i) else none := by
  rw [trace_entry, getElem?_map_range]

theorem eventsBy_reach (k m : Nat) : k < eventsBy (5 * (k + 1) + m) / 2 := by
  simp only [eventsBy]; omega

theorem level_writeVal (led p k : Nat) (h : led < 8) :
    level led (writeVal led p k) = decide (k % 2 = 1) := by
  simp only [level, writeVal]
  split_ifs with hk
  · simp [testBit_clearBit, hk]
  · simp [testBit_setBit, h]; omega

/-! ## The claims -/

/-- C1: for every initial `PORTC` and every `k`, the `k`-th write to `PORTC`
exists (from some step on it is in the trace), it leaves bit `PC2` clear when
`k` is even and set when `k` is odd, and two consecutive writes never leave
the pin at the same level. -/
theorem C1_level_alternates (d p k : Nat) :
    (∃ n, ∀ m, ∃ v, (portcWrites (trace LED_PIN (n + m) (entry d p)))[k]? = some v ∧
        level PC2 v = decide (k % 2 = 1)) ∧
    (∀ n v, (portcWrites (trace LED_PIN n (entry d p)))[k]? = some v →
        level PC2 v = decide (k % 2 = 1)) ∧
    (∀ n v w, (portcWrites (trace LED_PIN n (entry d p)))[k]? = some v →
        (portcWrites (trace LED_PIN n (entry d p)))[k + 1]? = some w →
        level PC2 v ≠ level PC2 w) := by
  have hl : ∀ j, level PC2 (writeVal LED_PIN p j) = decide (j % 2 = 1) :=
    fun j => level_writeVal PC2 p j (by decide)
  refine ⟨⟨5 * (k + 1), fun m => ⟨writeVal LED_PIN p k, ?_, hl k⟩⟩, ?_, ?_⟩
  · rw [portcWrites_trace_getElem?, if_pos (eventsBy_reach k m)]
  · intro n v hv
    rw [portcWrites_trace_getElem?] at hv
    split_ifs at hv
    cases hv
    exact hl k
  · intro n v w hv hw
    rw [portcWrites_trace_getElem?] at hv hw
    split_ifs at hv hw
    cases hv
    cases hw
    rw [hl, hl]
    rcases Nat.mod_two_eq_zero_or_one k with h | h <;>
      simp [h, Nat.succ_mod_two_eq_one_iff, Nat.succ_mod_two_eq_zero_iff]

/-- Instance of C1 at `DDRC = 0`, `PORTC = 0xFF`: write number 1 is in the trace
after 5 steps and drives the pin high. -/
theorem C1_level_alternates_witness :
    (portcWrites (trace LED_PIN 5 (entry 0 255)))[1]? = some 255 ∧
      level PC2 255 = decide (1 % 2 = 1) :=
  ⟨by decide, (C1_level_alternates 0 255 1).2.1 5 255 (by decide)⟩

/-- C5: whatever `PORTC` (and `DDRC`) hold at startup, the first write to
`PORTC` exists and leaves bit `PC2` clear; the value it stores is the initial
one with that bit cleared. -/
theorem C5_first_write_low (d p : Nat) :
    (∃ n, ∀ m, ∃ v, (portcWrites (trace LED_PIN (n + m) (entry d p))).head? = some v ∧
        level PC2 v = false ∧ v = clearBit PC2 p) ∧
    (∀ n v, (portcWrites (trace LED_PIN n (entry d p))).head? = some v →
        level PC2 v = false) := by
  have hl : level PC2 (writeVal LED_PIN p 0) = false := by
    simpa using level_writeVal PC2 p 0 (by decide)
  refine ⟨⟨5, fun m => ⟨writeVal LED_PIN p 0, ?_, hl, rfl⟩⟩, ?_⟩
  · rw [List.head?_eq_getElem?, portcWrites_trace_getElem?, if_pos (eventsBy_reach 0 m)]
  · intro n v hv
    rw [List.head?_eq_getElem?, portcWrites_trace_getElem?] at hv
    split_ifs at hv
    cases hv
    exact hl

/-- Instance of C5 with bit `PC2` of `PORTC` set at startup (`PORTC = 0xFF`):
the first value written is `0xFB`, whose bit `PC2` is clear. -/
theorem C5_first_write_low_witness :
    (portcWrites (trace LED_PIN 3 (entry 0 255))).head? = some 251 ∧ level PC2 251 = false :=
  ⟨by decide, (C5_first_write_low 0 255).2 3 251 (by decide)⟩

/-- C4: `main` never terminates. From every initial register state and for
every `n`, `n` steps exist; the state they reach can step again (it is not
terminal), is not at `return 0` (line 14) and has not exited. -/
theorem C4_never_terminates (d p n : Nat) :
    ∃ s tr, run LED_PIN n (entry d p) = some (s, tr) ∧
      (step LED_PIN s).isSome = true ∧ s.pc ≠ .line14 ∧ s.pc ≠ .exited := by
  refine ⟨_, _, run_entry LED_PIN d p n, ?_⟩
  rcases n with _ | k
  · simp [pcAt, step]
  · have hk : k % 5 = 0 ∨ k % 5 = 1 ∨ k % 5 = 2 ∨ k % 5 = 3 ∨ k % 5 = 4 := by omega
    rcases hk with h | h | h | h | h <;> simp [pcAt, step, h]

/-- C6: the initialization statement (the step from the entry of `main`) ends
with bit `PC2` of `DDRC` set and `PORTC` equal to its initial value; its only
event is the store to `DDRC`. -/
theorem C6_init_postcondition (d p : Nat) :
    ∃ s, step LED_PIN (entry d p) = some (s, [.writeDDRC s.DDRC]) ∧
      s.pc = .line8 ∧ s.DDRC.testBit PC2 = true ∧ s.PORTC = p ∧
      s.DDRC = setBit PC2 d := by
  refine ⟨⟨.line8, setBit PC2 d, p⟩, rfl, rfl, ?_, rfl, rfl⟩
  simp [testBit_setBit, PC2]

/-- C3: in every prefix of the event trace of `main`, a write to `PORTC` is
preceded by the write to `DDRC` that sets bit `PC2`. -/
theorem C3_output_before_level (d p n : Nat) (l : List Event) (i v : Nat)
    (hl : l <+: trace LED_PIN n (entry d p)) (hi : l[i]? = some (.writePORTC v)) :
    ∃ j w, j < i ∧ l[j]? = some (.writeDDRC w) ∧ w.testBit PC2 = true := by
  obtain ⟨r, hr⟩ := hl
  have hlen : i < l.length := by
    by_contra hc
    rw [List.getElem?_eq_none (by omega)] at hi
    cases hi
  have hpre : ∀ j, j < l.length → l[j]? = some (eventAt LED_PIN d p j) := by
    intro j hj
    have h1 : (trace LED_PIN n (entry d p))[j]? = l[j]? := by
      rw [← hr, List.getElem?_append_left hj]
    rw [← h1, trace_getElem?]
    have h2 : j < (trace LED_PIN n (entry d p)).length := by
      rw [← hr, List.length_append]; omega
    rw [trace_entry, List.length_map, List.length_range] at h2
    rw [if_pos h2]
  have h0 : i ≠ 0 := by
    rintro rfl
    rw [hpre 0 hlen] at hi
    simp [eventAt] at hi
  refine ⟨0, setBit LED_PIN d, by omega, hpre 0 (by omega), ?_⟩
  simp [testBit_setBit, LED_PIN, PC2]

/-- Instance of C3: the trace of the first three steps from all-zero registers
has its `PORTC` write at index 1 and the `DDRC` write before it. -/
theorem C3_output_before_level_witness :
    [Event.writeDDRC 4, Event.writePORTC 0] <+: trace LED_PIN 3 (entry 0 0) ∧
      [Event.writeDDRC 4, Event.writePORTC 0][1]? = some (.writePORTC 0) ∧
      ∃ j w, j < 1 ∧ [Event.writeDDRC 4, Event.writePORTC 0][j]? = some (.writeDDRC w) ∧
        w.testBit PC2 = true :=
  ⟨⟨[], by decide⟩, by decide,
    C3_output_before_level 0 0 3 [.writeDDRC 4, .writePORTC 0] 1 0 ⟨[], by decide⟩ (by decide)⟩

/-- C2: in the event trace of `main`, every write to `PORTC` is followed by
one `_delay_ms(500)` and then by the next write to `PORTC`; with time measured
as the sum of the requested delays, the `k`-th write exists, happens at
`500 * k` ms and has level low for even `k`, high for odd `k`; the write two
places later stores the same value 1000 ms later. -/
theorem C2_delay_between_writes (d p : Nat) :
    (∀ n i v, (trace LED_PIN n (entry d p))[i]? = some (.writePORTC v) →
      ∃ w, ∀ m,
        (trace LED_PIN (n + 5 + m) (entry d p))[i + 1]? = some (.delay_ms 500) ∧
        (trace LED_PIN (n + 5 + m) (entry d p))[i + 2]? = some (.writePORTC w)) ∧
    (∀ k, ∃ n, ∀ m, ∃ v,
      (timedWrites (trace LED_PIN (n + m) (entry d p)))[k]? = some (500 * k, v) ∧
      level PC2 v = decide (k % 2 = 1)) ∧
    (∀ n k t v, (timedWrites (trace LED_PIN n (entry d p)))[k]? = some (t, v) →
      t = 500 * k) ∧
    (∀ n k t v t' v', (timedWrites (trace LED_PIN n (entry d p)))[k]? = some (t, v) →
      (timedWrites (trace LED_PIN n (entry d p)))[k + 2]? = some (t', v') →
      t' = t + 1000 ∧ v' = v) := by
  refine ⟨?_, ?_, ?_, ?_⟩
  · intro n i v hv
    rw [trace_getElem?] at hv
    split_ifs at hv with hi
    rcases i with _ | j
    · simp [eventAt] at hv
    · rcases Nat.mod_two_eq_zero_or_one j with h | h
      · refine ⟨writeVal LED_PIN p ((j + 2) / 2), fun m => ?_⟩
        have b1 : j + 1 + 1 < eventsBy (n + 5 + m) := by
          simp only [eventsBy] at hi ⊢; omega
        have b2 : j + 1 + 2 < eventsBy (n + 5 + m) := by
          simp only [eventsBy] at hi ⊢; omega
        have h1 : (j + 1) % 2 = 1 := by omega
        have h2 : (j + 2) % 2 = 0 := by omega
        rw [trace_getElem?, trace_getElem?, if_pos b1, if_pos b2]
        simp [eventAt, h1, h2]
      · simp [eventAt, h] at hv
  · intro k
    refine ⟨5 * (k + 1), fun m => ⟨writeVal LED_PIN p k, ?_, level_writeVal PC2 p k (by decide)⟩⟩
    rw [timedWrites_trace_getElem?, if_pos (eventsBy_reach k m)]
  · intro n k t v h
    rw [timedWrites_trace_getElem?] at h
    split_ifs at h
    cases h
    rfl
  · intro n k t v t' v' h h'
    rw [timedWrites_trace_getElem?] at h h'
    split_ifs at h h'
    cases h
    cases h'
    refine ⟨by omega, ?_⟩
    have e : (k + 2) % 2 = k % 2 := by omega
    simp only [writeVal, e]

/-- Instance of C2 at all-zero registers: after 8 steps the write number 2 is
in the trace and its time stamp is 1000 ms. -/
theorem C2_delay_between_writes_witness :
    (timedWrites (trace LED_PIN 8 (entry 0 0)))[2]? = some (1000, 0) ∧ 1000 = 500 * 2 :=
  ⟨by decide, (C2_delay_between_writes 0 0).2.2.1 8 2 1000 0 (by decide)⟩

theorem testBit_mask (n i : Nat) (h : n ≤ 7) :
    (255 - 2 ^ n).testBit i = (decide (i < 8) && !decide (n = i)) := by
  have h2 : 2 ^ n < 2 ^ 8 := Nat.pow_lt_pow_right (by norm_num) (by omega)
  have e : 255 - 2 ^ n = 2 ^ 8 - (2 ^ n + 1) := by omega
  rw [e, Nat.testBit_two_pow_sub_succ h2, Nat.testBit_two_pow]

theorem clearBit_eq_and (n r : Nat) (h : n ≤ 7) : clearBit n r = r &&& (255 - 2 ^ n) := by
  apply Nat.eq_of_testBit_eq
  intro i
  rw [testBit_clearBit, Nat.testBit_and, testBit_mask n i h]
  by_cases hi : i < 8 <;> by_cases hp : n = i <;> simp [hi, hp]

theorem setBit_eq_or (n r : Nat) (h : n ≤ 7) (hr : r < 256) : setBit n r = r ||| 2 ^ n := by
  apply Nat.eq_of_testBit_eq
  intro i
  rw [testBit_setBit, Nat.testBit_or, Nat.testBit_two_pow]
  by_cases hi : i < 8
  · simp [hi]
  · have hri : r.testBit i = false := by
      apply Nat.testBit_lt_two_pow
      calc r < 2 ^ 8 := hr
        _ ≤ 2 ^ i := Nat.pow_le_pow_right (by norm_num) (by omega)
    have hne : n ≠ i := by omega
    simp [hi, hri, hne]

/-- C7: the driven pin is selected by `LED_PIN` alone. With any pin index
`n` in `0..7` in the place of `LED_PIN`, initialization stores `DDRC | (1 << n)`
(bit `n` set), and the `k`-th write to `PORTC` stores `PORTC & ~(1 << n)` for
even `k` and `PORTC | (1 << n)` for odd `k`, so bit `n` alternates. For
`LED_PIN = PC2 = 2` the set mask is `0x04` and the clear mask, truncated to
8 bits, is `0xFB`. -/
theorem C7_pin_selected_by_LED_PIN (n d p k : Nat) (hn : n ≤ 7) :
    (∃ s, step n (entry d p) = some (s, [.writeDDRC s.DDRC]) ∧
      s.DDRC = toU8 (d ||| 1 <<< n) ∧ s.DDRC.testBit n = true) ∧
    (∃ N, ∀ m, ∃ v, (portcWrites (trace n (N + m) (entry d p)))[k]? = some v ∧
      level n v = decide (k % 2 = 1) ∧
      v = if k % 2 = 0 then p &&& (255 - 1 <<< n) else toU8 (p ||| 1 <<< n)) ∧
    (LED_PIN = PC2 ∧ PC2 = 2 ∧ shl1 LED_PIN = 0x04 ∧ toU8 (intNot (shl1 LED_PIN)) = 0xFB) := by
  have hs : shl1 n = 1 <<< n := by
    have h2 : 2 ^ n < 2 ^ 16 := Nat.pow_lt_pow_right (by norm_num) (by omega)
    simp only [shl1, INT_BITS, Nat.shiftLeft_eq, Nat.one_mul]
    exact Nat.mod_eq_of_lt h2
  refine ⟨⟨⟨.line8, setBit n d, p⟩, rfl, ?_, ?_⟩, ⟨5 * (k + 1), fun m => ?_⟩, rfl, rfl, rfl, rfl⟩
  · show setBit n d = _
    rw [setBit, hs]
  · show (setBit n d).testBit n = true
    have h8 : n < 8 := by omega
    simp [testBit_setBit, h8]
  · refine ⟨writeVal n p k, ?_, level_writeVal n p k (by omega), ?_⟩
    · rw [portcWrites_trace_getElem?, if_pos (eventsBy_reach k m)]
    · simp only [writeVal]
      split_ifs
      · rw [clearBit_eq_and n p hn, Nat.shiftLeft_eq, Nat.one_mul]
      · rw [setBit_clearBit, setBit, hs]

/-- Instance of C7 at pin index 2 (the value of `LED_PIN`), `DDRC = 0`,
`PORTC = 0xFF` and write number 1. -/
theorem C7_pin_selected_by_LED_PIN_witness :
    (2 ≤ 7) ∧ ∃ s, step 2 (entry 0 255) = some (s, [.writeDDRC s.DDRC]) ∧
      s.DDRC = toU8 (0 ||| 1 <<< 2) ∧ s.DDRC.testBit 2 = true :=
  ⟨by decide, (C7_pin_selected_by_LED_PIN 2 0 255 1 (by decide)).1⟩

/-- C8: the level writes touch only bit `PC2` of `PORTC`. For an initial
8-bit value `p`, every reachable state has `PORTC & 0xFB = p & 0xFB`; after a
clear (control at line 10 or 11) `PORTC = p & 0xFB`, after a set (control at
line 12) `PORTC = p | 0x04`, and the written values are these two in turn. -/
theorem C8_only_pin_touched (d p n : Nat) (hp : p < 256) :
    ∃ s tr, run LED_PIN n (entry d p) = some (s, tr) ∧
      s.PORTC &&& 0xFB = p &&& 0xFB ∧
      ((s.pc = .line10 ∨ s.pc = .line11) → s.PORTC = p &&& 0xFB) ∧
      (s.pc = .line12 → s.PORTC = p ||| 0x04) ∧
      ((s.pc = .line7 ∨ s.pc = .line8 ∨ s.pc = .line9) →
        s.PORTC = p ∨ s.PORTC = p ||| 0x04) ∧
      (∀ k v, (portcWrites tr)[k]? = some v →
        v = if k % 2 = 0 then p &&& 0xFB else p ||| 0x04) := by
  have hc : clearBit LED_PIN p = p &&& 0xFB := clearBit_eq_and 2 p (by decide)
  have hs : setBit LED_PIN (clearBit LED_PIN p) = p ||| 0x04 := by
    rw [setBit_clearBit]
    exact setBit_eq_or 2 p (by decide) hp
  have hm : ∀ x, clearBit LED_PIN x = x &&& 0xFB := fun x => clearBit_eq_and 2 x (by decide)
  have hcc : (p &&& 0xFB) &&& 0xFB = p &&& 0xFB := by
    rw [← hm, ← hm, clearBit_clearBit]
  have hsc : (p ||| 0x04) &&& 0xFB = p &&& 0xFB := by
    rw [← hm, ← hm, ← hs, clearBit_setBit, clearBit_clearBit]
  refine ⟨_, _, run_entry LED_PIN d p n, ?_, ?_, ?_, ?_, ?_⟩
  · show portcAt LED_PIN p n &&& 0xFB = p &&& 0xFB
    simp only [portcAt]
    split_ifs
    · rfl
    · rw [hc, hcc]
    · rw [hs, hsc]
  · show (pcAt n = .line10 ∨ pcAt n = .line11) → portcAt LED_PIN p n = p &&& 0xFB
    intro h
    have hn : 3 ≤ n ∧ ((n - 1) % 5 = 2 ∨ (n - 1) % 5 = 3) := by
      rcases n with _ | k
      · simp [pcAt] at h
      · have hk : k % 5 = 0 ∨ k % 5 = 1 ∨ k % 5 = 2 ∨ k % 5 = 3 ∨ k % 5 = 4 := by omega
        rcases hk with e | e | e | e | e <;> first | omega | simp [pcAt, e] at h
    simp only [portcAt]
    rw [if_neg (by omega), if_pos hn.2, hc]
  · show pcAt n = .line12 → portcAt LED_PIN p n = p ||| 0x04
    intro h
    have hn : 3 ≤ n ∧ (n - 1) % 5 = 4 := by
      rcases n with _ | k
      · simp [pcAt] at h
      · have hk : k % 5 = 0 ∨ k % 5 = 1 ∨ k % 5 = 2 ∨ k % 5 = 3 ∨ k % 5 = 4 := by omega
        rcases hk with e | e | e | e | e <;> first | omega | simp [pcAt, e] at h
    simp only [portcAt]
    rw [if_neg (by omega), if_neg (by omega), hs]
  · show (pcAt n = .line7 ∨ pcAt n = .line8 ∨ pcAt n = .line9) →
      portcAt LED_PIN p n = p ∨ portcAt LED_PIN p n = p ||| 0x04
    intro h
    have hn : n ≤ 2 ∨ (n - 1) % 5 = 0 ∨ (n - 1) % 5 = 1 := by
      rcases n with _ | k
      · omega
      · have hk : k % 5 = 0 ∨ k % 5 = 1 ∨ k % 5 = 2 ∨ k % 5 = 3 ∨ k % 5 = 4 := by omega
        rcases hk with e | e | e | e | e <;> first | omega | simp [pcAt, e] at h
    simp only [portcAt]
    split_ifs
    · exact Or.inl rfl
    · omega
    · exact Or.inr hs
  · intro k v hv
    rw [← trace_entry, portcWrites_trace_getElem?] at hv
    split_ifs at hv
    cases hv
    simp only [writeVal]
    rw [hs, hc]

/-- Instance of C8 at `PORTC = 0xFF`: the state after the first clear. -/
theorem C8_only_pin_touched_witness :
    (255 < 256) ∧ ∃ s tr, run LED_PIN 3 (entry 0 255) = some (s, tr) ∧
      s.PORTC &&& 0xFB = 255 &&& 0xFB :=
  ⟨by decide, by
    obtain ⟨s, tr, h, h1, _⟩ := C8_only_pin_touched 0 255 3 (by decide)
    exact ⟨s, tr, h, h1⟩⟩

/-- C9: the pin stays an output and no other direction bit changes. For an
initial 8-bit `DDRC` value `d`, every state reached after the initialization
statement has `DDRC = d | 0x04` (bit `PC2` set); the only store to `DDRC` in
the trace is its first event, and the next step neither changes nor writes
`DDRC`. -/
theorem C9_ddrc_stable (d p n : Nat) (hd : d < 256) :
    ∃ s tr, run LED_PIN (n + 1) (entry d p) = some (s, tr) ∧
      s.DDRC = d ||| 0x04 ∧ s.DDRC.testBit PC2 = true ∧
      (∀ i v, tr[i]? = some (.writeDDRC v) → i = 0) ∧
      (∀ s' ev, step LED_PIN s = some (s', ev) →
        s'.DDRC = s.DDRC ∧ ∀ v, Event.writeDDRC v ∉ ev) := by
  have hs : setBit LED_PIN d = d ||| 0x04 := setBit_eq_or 2 d (by decide) hd
  refine ⟨_, _, run_entry LED_PIN d p (n + 1), ?_, ?_, ?_, ?_⟩
  · show ddrcAt LED_PIN d (n + 1) = d ||| 0x04
    simp only [ddrcAt]
    rw [if_neg (by omega), hs]
  · show (ddrcAt LED_PIN d (n + 1)).testBit PC2 = true
    simp only [ddrcAt]
    rw [if_neg (by omega)]
    simp [testBit_setBit, LED_PIN, PC2]
  · intro i v hv
    rw [getElem?_map_range] at hv
    split_ifs at hv
    rcases i with _ | j
    · rfl
    · rcases Nat.mod_two_eq_zero_or_one j with h | h <;> simp [eventAt, h] at hv
  · intro s' ev hstep
    have hk : n % 5 = 0 ∨ n % 5 = 1 ∨ n % 5 = 2 ∨ n % 5 = 3 ∨ n % 5 = 4 := by omega
    rcases hk with e | e | e | e | e <;>
      · simp only [step, pcAt, e] at hstep
        simp at hstep
        obtain ⟨rfl, rfl⟩ := hstep
        simp

/-- Instance of C9 at `DDRC = 0x01`: the state right after initialization. -/
theorem C9_ddrc_stable_witness :
    (1 < 256) ∧ ∃ s tr, run LED_PIN 1 (entry 1 0) = some (s, tr) ∧ s.DDRC = 1 ||| 0x04 :=
  ⟨by decide, by
    obtain ⟨s, tr, h, h1, _⟩ := C9_ddrc_stable 1 0 0 (by decide)
    exact ⟨s, tr, h, h1⟩⟩

end Blink
